import Mathlib

/-!
Shallow embedding of `src/radix_trie.rs` from the `mm2rtrie` repository: a
bitwise trie keyed on 32-bit IPv4 addresses, with multi-value accumulation
along the lookup path, a CIDR text parser and binary persistence.

Machine integers (`u32`) are represented as `Nat`, reduced modulo `2 ^ 32`
wherever the Rust operation wraps.  Rust operations that fail in the
checked (debug) semantics -- overflowing `-` and `<<`, out-of-bounds `Vec`
indexing and `Result::unwrap` on an error -- are modelled with `Option`,
where `none` stands for the panic.
-/

namespace Mm2rtrie

/-- `u32` shift by one, `x << 1`: the bit shifted out of position 31 is
discarded.  (A shift amount of 1 never overflows, so this is total.) -/
def shiftLeft1 (x : Nat) : Nat := 2 * x % 2 ^ 32

/-- Bit 31 of a 32-bit word.  The source tests `((1u32 << 31) & ip) == 0`;
that test succeeds exactly when `topBit ip = 0`. -/
def topBit (x : Nat) : Nat := x / 2 ^ 31 % 2

theorem shiftLeft1_lt (x : Nat) : shiftLeft1 x < 2 ^ 32 :=
  Nat.mod_lt _ (by norm_num)

theorem shiftLeft1_iterate (k x : Nat) (hx : x < 2 ^ 32) :
    shiftLeft1^[k] x = 2 ^ k * x % 2 ^ 32 := by
  induction k with
  | zero => simpa using (Nat.mod_eq_of_lt hx).symm
  | succ k ih =>
    rw [Function.iterate_succ_apply', ih, shiftLeft1]
    have h : 2 * (2 ^ k * x % 2 ^ 32) % 2 ^ 32 = 2 * (2 ^ k * x) % 2 ^ 32 :=
      (Nat.mod_modEq (2 ^ k * x) (2 ^ 32)).mul_left 2
    rw [h, ← Nat.mul_assoc, ← pow_succ']

/-- Number of iterated `u32` left shifts after which `mask` is still
nonzero, capped at 33.  This is the termination measure for the
trie-descent recursions: every 32-bit word reaches 0 after 32 shifts. -/
def shiftFuel (mask : Nat) : Nat :=
  ((Finset.range 33).filter (fun k => shiftLeft1^[k] mask ≠ 0)).card

theorem shiftFuel_shiftLeft1_lt {mask : Nat} (h : mask ≠ 0) :
    shiftFuel (shiftLeft1 mask) < shiftFuel mask := by
  classical
  have hiter : ∀ k, shiftLeft1^[k] (shiftLeft1 mask) = shiftLeft1^[k + 1] mask := by
    intro k
    rw [Function.iterate_succ_apply]
  have hzero : shiftLeft1^[32] (shiftLeft1 mask) = 0 := by
    rw [shiftLeft1_iterate 32 _ (shiftLeft1_lt mask)]
    exact Nat.mul_mod_right _ _
  set S : Finset Nat :=
    (Finset.range 33).filter (fun k => shiftLeft1^[k] mask ≠ 0) with hS
  set S' : Finset Nat :=
    (Finset.range 33).filter (fun k => shiftLeft1^[k] (shiftLeft1 mask) ≠ 0) with hS'
  have hsub : S'.image (· + 1) ⊆ S := by
    intro j hj
    rcases Finset.mem_image.mp hj with ⟨k, hk, rfl⟩
    rcases Finset.mem_filter.mp hk with ⟨hk33, hkne⟩
    have hk32 : k ≠ 32 := by
      intro hk32
      subst hk32
      exact hkne hzero
    have hklt : k < 32 :=
      Nat.lt_of_le_of_ne (Nat.lt_succ_iff.mp (Finset.mem_range.mp hk33)) hk32
    refine Finset.mem_filter.mpr ⟨Finset.mem_range.mpr (by omega), ?_⟩
    rw [← hiter k]
    exact hkne
  have h0S : 0 ∈ S := by
    refine Finset.mem_filter.mpr ⟨Finset.mem_range.mpr (by omega), ?_⟩
    simpa using h
  have h0not : 0 ∉ S'.image (· + 1) := by
    intro hmem
    rcases Finset.mem_image.mp hmem with ⟨k, _, hk⟩
    omega
  have hss : S'.image (· + 1) ⊂ S :=
    (Finset.ssubset_iff_of_subset hsub).mpr ⟨0, h0S, h0not⟩
  have hcard : S'.card = (S'.image (· + 1)).card :=
    (Finset.card_image_of_injective S' (add_left_injective 1)).symm
  calc S'.card = (S'.image (· + 1)).card := hcard
    _ < S.card := Finset.card_lt_card hss

/-- `TrieNode<V>` from the source: an optional left child, an optional
right child, and an optional vector of attached values. -/
inductive TrieNode (V : Type) where
  | mk (l : Option (TrieNode V)) (r : Option (TrieNode V)) (v : Option (List V))

namespace TrieNode

variable {V : Type}

/-- Field `l` of `TrieNode`. -/
def l : TrieNode V → Option (TrieNode V)
  | .mk x _ _ => x

/-- Field `r` of `TrieNode`. -/
def r : TrieNode V → Option (TrieNode V)
  | .mk _ x _ => x

/-- Field `v` of `TrieNode`. -/
def v : TrieNode V → Option (List V)
  | .mk _ _ x => x

@[simp] theorem l_mk (a : Option (TrieNode V)) (b : Option (TrieNode V))
    (c : Option (List V)) : l (mk a b c) = a := rfl

@[simp] theorem r_mk (a : Option (TrieNode V)) (b : Option (TrieNode V))
    (c : Option (List V)) : r (mk a b c) = b := rfl

@[simp] theorem v_mk (a : Option (TrieNode V)) (b : Option (TrieNode V))
    (c : Option (List V)) : v (mk a b c) = c := rfl

/-- `TrieNode::empty`. -/
def empty : TrieNode V := mk none none none

@[simp] theorem empty_l : (empty : TrieNode V).l = none := rfl

@[simp] theorem empty_r : (empty : TrieNode V).r = none := rfl

@[simp] theorem empty_v : (empty : TrieNode V).v = none := rfl

/-- `TrieNode::insert`.  While the mask is nonzero, descend (creating
missing children as empty nodes) on the side selected by the top bit of
`ip`, shifting `ip` and `mask` left; when the mask is zero, append the
value to this node's value list (creating the list if absent). -/
def insert (t : TrieNode V) (ip mask : Nat) (value : V) : TrieNode V :=
  if mask = 0 then
    match t.v with
    | some vs => mk t.l t.r (some (vs ++ [value]))
    | none => mk t.l t.r (some [value])
  else
    if topBit ip = 0 then
      mk (some (insert (t.l.getD empty) (shiftLeft1 ip) (shiftLeft1 mask) value)) t.r t.v
    else
      mk t.l (some (insert (t.r.getD empty) (shiftLeft1 ip) (shiftLeft1 mask) value)) t.v
termination_by shiftFuel mask
decreasing_by
  · exact shiftFuel_shiftLeft1_lt (by assumption)
  · exact shiftFuel_shiftLeft1_lt (by assumption)

/-- `TrieNode::get`.  Extend the buffer with this node's values, stop when
the mask is exhausted or the selected child is absent, otherwise descend. -/
def get (t : TrieNode V) (ip mask : Nat) (buffer : List V) : List V :=
  let buffer1 := match t.v with
    | some vs => buffer ++ vs
    | none => buffer
  if mask = 0 then buffer1
  else
    match (if topBit ip = 0 then t.l else t.r) with
    | some n => get n (shiftLeft1 ip) (shiftLeft1 mask) buffer1
    | none => buffer1
termination_by shiftFuel mask
decreasing_by
  · exact shiftFuel_shiftLeft1_lt (by assumption)

/-- Specification-side description of the walk performed by `get`: the
list of nodes visited, root first, in visiting order. -/
def pathTo (t : TrieNode V) (ip mask : Nat) : List (TrieNode V) :=
  t :: (if mask = 0 then []
    else
      match (if topBit ip = 0 then t.l else t.r) with
      | some n => pathTo n (shiftLeft1 ip) (shiftLeft1 mask)
      | none => [])
termination_by shiftFuel mask
decreasing_by
  · exact shiftFuel_shiftLeft1_lt (by assumption)

end TrieNode

/-- `Trie<V>` from the source: a root node. -/
structure Trie (V : Type) where
  root : TrieNode V

namespace Trie

variable {V : Type}

/-- `Trie::empty`. -/
def empty : Trie V := ⟨ TrieNode.empty⟩

end Trie

/-- Rust `u32` subtraction `a - b` in the checked (debug) semantics:
`none` models the overflow panic when `b > a`. -/
def checkedSub (a b : Nat) : Option Nat :=
  if b ≤ a then some (a - b) else none

/-- Rust `u32` shift `x << s` in the checked (debug) semantics: a shift
amount of 32 or more overflows, `none` models the panic. -/
def checkedShl (x s : Nat) : Option Nat :=
  if s < 32 then some (x * 2 ^ s % 2 ^ 32) else none

namespace Trie

variable {V : Type}

/-- `Trie::insert_net_and_prefix`: computes
`mask = 0xffffffff << (32 - p)` and inserts at the root.  `none` models a
panic of the mask computation (the Rust function returns unit and has no
error channel). -/
def insert_net_and_prefix (t : Trie V) (net p : Nat) (value : V) : Option (Trie V) :=
  match checkedSub 32 p with
  | none => none
  | some s =>
    match checkedShl 4294967295 s with
    | none => none
    | some mask => some ⟨ TrieNode.insert t.root net mask value⟩

/-- `Trie::get`: run the node walk with a fresh buffer and the all-ones
mask `0xffffffff`. -/
def get (t : Trie V) (ip : Nat) : List V :=
  TrieNode.get t.root ip 4294967295 []

/-- `Trie::contains_ip`: whether the collected buffer is nonempty. -/
def contains_ip (t : Trie V) (ip : Nat) : Bool :=
  ( TrieNode.get t.root ip 4294967295 []).length != 0

end Trie

/-- The `u32` value of the dotted quad `a.b.c.d` (big-endian octet order),
as produced by `u32::from(Ipv4Addr::new(a, b, c, d))`. -/
def ipv4 (a b c d : Nat) : Nat := ((a * 256 + b) * 256 + c) * 256 + d

/-- Split at the first `/`, like `splitn(2, "/")`: the part before it and,
when a separator was found, the part after it. -/
def splitn2 : List Char → List Char × Option (List Char)
  | [] => ([], none)
  | c :: rest =>
    if c = '/' then ([], some rest)
    else
      let (a, b) := splitn2 rest
      (c :: a, b)

/-- Numeric value of a digit string (no validation). -/
def digitsVal (s : List Char) : Nat :=
  s.foldl (fun acc c => acc * 10 + (c.toNat - 48)) 0

/-- Models `str::parse::<u32>()`: an optional leading `+` followed by one
or more ASCII digits whose value fits in a `u32`; anything else is a parse
error. -/
def parseU32 (s : List Char) : Option Nat :=
  let s1 := match s with
    | '+' :: rest => rest
    | _ => s
  if s1 ≠ [] ∧ s1.all Char.isDigit ∧ digitsVal s1 < 2 ^ 32 then some (digitsVal s1)
  else none

/-- Models one octet of `Ipv4Addr::from_str`: plain decimal digits (no
sign), no leading zero unless the octet is exactly `0`, value at most
255. -/
def parseOctet (s : List Char) : Option Nat :=
  if s ≠ [] ∧ s.all Char.isDigit ∧ (s.length = 1 ∨ s.head? ≠ some '0') ∧ digitsVal s ≤ 255
  then some (digitsVal s) else none

/-- Split on every `.` separator. -/
def splitOnDot : List Char → List (List Char)
  | [] => [[]]
  | c :: rest =>
    if c = '.' then [] :: splitOnDot rest
    else
      match splitOnDot rest with
      | part :: parts => (c :: part) :: parts
      | [] => [[c]]

/-- Models `Ipv4Addr::from_str` followed by `u32::from`: exactly four
`.`-separated octets. -/
def parseIpv4 (s : List Char) : Option Nat :=
  match splitOnDot s with
  | [a, b, c, d] =>
    match parseOctet a, parseOctet b, parseOctet c, parseOctet d with
    | some va, some vb, some vc, some vd => some (ipv4 va vb vc vd)
    | _, _, _, _ => none
  | _ => none

/-- `CidrBlock` from the source: network address and prefix length (the
second field is called `prefix` in the source). -/
structure CidrBlock where
  net : Nat
  p : Nat
deriving DecidableEq

/-- Outcome of `CidrBlock::from_str`: a successful parse, an `Err` value
returned to the caller, or a panic. -/
inductive ParseResult where
  | ok (cb : CidrBlock)
  | err
  | panicked
deriving DecidableEq

/-- `CidrBlock::from_str`.  `splitn(2, "/")` yields one or two parts;
`parts[0].parse::<Ipv4Addr>()?` runs first and returns an error on bad
input, after which indexing `parts[1]` panics when no separator was
present. -/
def CidrBlock.from_str (s : String) : ParseResult :=
  let parts := splitn2 s.data
  match parseIpv4 parts.1 with
  | none => ParseResult.err
  | some net =>
    match parts.2 with
    | none => ParseResult.panicked
    | some pp =>
      match parseU32 pp with
      | none => ParseResult.err
      | some p => ParseResult.ok ⟨net, p⟩

/-- `Trie::insert_cidr`: parse, `unwrap`, then insert with
`mask = 0xffffffff << (32 - prefix)`.  `none` models a panic (from the
`unwrap` on a parse failure, from the missing-separator index, or from
the mask computation). -/
def Trie.insert_cidr {V : Type} (t : Trie V) (cidr : String) (value : V) :
    Option (Trie V) :=
  match CidrBlock.from_str cidr with
  | ParseResult.ok cb =>
    match checkedSub 32 cb.p with
    | none => none
    | some s =>
      match checkedShl 4294967295 s with
      | none => none
      | some mask => some ⟨ TrieNode.insert t.root cb.net mask value⟩
  | _ => none

/-- Number of nodes of a trie node graph; used to bound decoder fuel. -/
def TrieNode.size {V : Type} : TrieNode V → Nat
  | .mk none none _ => 1
  | .mk none (some rn) _ => 1 + rn.size
  | .mk (some ln) none _ => 1 + ln.size
  | .mk (some ln) (some rn) _ => 1 + ln.size + rn.size

/-- Modelled from the spec: the persistence encoding of a node (the
`bincode`-derived codec is not part of `src/`).  Pre-order, per node:
presence of the left child, presence of the right child, presence and
contents of the value list (length-prefixed, each value through the
caller's value codec), then the present children, recursively. -/
def TrieNode.nodeEncode {V : Type} (encV : V → List Nat) : TrieNode V → List Nat
  | .mk l r v =>
    [if l.isSome then 1 else 0, if r.isSome then 1 else 0]
      ++ (match v with
        | none => [0]
        | some vs => 1 :: vs.length :: (vs.map encV).flatten)
      ++ (match l with
        | some n => nodeEncode encV n
        | none => [])
      ++ (match r with
        | some n => nodeEncode encV n
        | none => [])

/-- Modelled from the spec: decode `count` consecutive values through the
caller's value codec. -/
def decodeValues {V : Type} (decV : List Nat → Option (V × List Nat)) :
    Nat → List Nat → Option (List V × List Nat)
  | 0, bytes => some ([], bytes)
  | count + 1, bytes =>
    match decV bytes with
    | none => none
    | some (x, rest) =>
      match decodeValues decV count rest with
      | none => none
      | some (xs, rest1) => some (x :: xs, rest1)

/-- Modelled from the spec: decode an optional component.  Discriminant
`0` is "absent", `1` is "present" (followed by the component through
`decSome`); anything else is an illegal discriminant. -/
def decodeOptPart {A : Type} (decSome : List Nat → Option (A × List Nat))
    (flag : Nat) (bytes : List Nat) : Option (Option A × List Nat) :=
  if flag = 0 then some (none, bytes)
  else if flag = 1 then
    match decSome bytes with
    | none => none
    | some (x, rest) => some (some x, rest)
  else none

/-- Modelled from the spec: decode a length-prefixed value list. -/
def decodeValueList {V : Type} (decV : List Nat → Option (V × List Nat))
    (bytes : List Nat) : Option (List V × List Nat) :=
  match bytes with
  | count :: bytes2 => decodeValues decV count bytes2
  | [] => none

/-- Modelled from the spec: decode one node record -- presence flag and
contents of the value list, then the two children, each behind its own
presence flag.  The fuel argument only serves termination; `readTrie`
supplies more fuel than any input can consume. -/
def nodeDecode {V : Type} (decV : List Nat → Option (V × List Nat)) :
    Nat → List Nat → Option (TrieNode V × List Nat)
  | 0, _ => none
  | fuel + 1, bytes =>
    match bytes with
    | hl :: hr :: hv :: bytes1 =>
      match decodeOptPart (decodeValueList decV) hv bytes1 with
      | none => none
      | some (vopt, bytesA) =>
        match decodeOptPart (nodeDecode decV fuel) hl bytesA with
        | none => none
        | some (lopt, bytesB) =>
          match decodeOptPart (nodeDecode decV fuel) hr bytesB with
          | none => none
          | some (ropt, bytesC) => some ( TrieNode.mk lopt ropt vopt, bytesC)
    | _ => none

/-- Modelled from the spec: `Trie::write_to_file`, with the produced byte
sequence returned instead of being written to disk. -/
def Trie.write_to_file {V : Type} (encV : V → List Nat) (t : Trie V) : List Nat :=
  TrieNode.nodeEncode encV t.root

/-- Modelled from the spec: decoding of a persisted byte sequence into a
trie.  The whole input must be consumed: trailing garbage is an error. -/
def readTrie {V : Type} (decV : List Nat → Option (V × List Nat))
    (bytes : List Nat) : Option (Trie V) :=
  match nodeDecode decV (bytes.length + 1) bytes with
  | some (root, []) => some ⟨root⟩
  | _ => none

/-- `Trie::read_from_file`, with the file system modelled as an optional
byte sequence: `none` is a missing path, which yields a fresh empty trie
as in the source; `some bytes` is a present file whose decoding is
modelled from the spec.  The outer `none` models the `unwrap` panic on a
decode error. -/
def Trie.read_from_file {V : Type} (decV : List Nat → Option (V × List Nat)) :
    Option (List Nat) → Option (Trie V)
  | none => some Trie.empty
  | some bytes => readTrie decV bytes

/-- A concrete value codec on `Nat` (one byte per value), used to
instantiate the generic persistence results. -/
def encNat : Nat → List Nat := fun n => [n]

/-- Decoder matching `encNat`. -/
def decNat : List Nat → Option (Nat × List Nat)
  | b :: rest => some (b, rest)
  | [] => none

/-- A small concrete trie used to instantiate the persistence results. -/
def sampleTrie : Trie Nat :=
  ⟨ TrieNode.mk (some ( TrieNode.mk none none (some [5]))) none (some [1, 2])⟩

/-! ## Unfolding lemmas for the recursive trie operations -/

namespace TrieNode

variable {V : Type}

theorem insert_zero (t : TrieNode V) (ip : Nat) (value : V) :
    insert t ip 0 value = mk t.l t.r (some (t.v.getD [] ++ [value])) := by
  rw [insert]
  cases hv : t.v <;> simp [hv]

theorem insert_pos_l {mask ip : Nat} (hm : mask ≠ 0) (hb : topBit ip = 0)
    (t : TrieNode V) (value : V) :
    insert t ip mask value
      = mk (some (insert (t.l.getD empty) (shiftLeft1 ip) (shiftLeft1 mask) value))
          t.r t.v := by
  rw [insert]
  simp [hm, hb]

theorem insert_pos_r {mask ip : Nat} (hm : mask ≠ 0) (hb : topBit ip ≠ 0)
    (t : TrieNode V) (value : V) :
    insert t ip mask value
      = mk t.l
          (some (insert (t.r.getD empty) (shiftLeft1 ip) (shiftLeft1 mask) value))
          t.v := by
  rw [insert]
  simp [hm, hb]

theorem get_zero (t : TrieNode V) (ip : Nat) (buffer : List V) :
    get t ip 0 buffer = buffer ++ t.v.getD [] := by
  rw [get]
  cases hv : t.v <;> simp [hv]

theorem get_pos {mask ip : Nat} (hm : mask ≠ 0) (t : TrieNode V) (buffer : List V) :
    get t ip mask buffer
      = match (if topBit ip = 0 then t.l else t.r) with
        | some n => get n (shiftLeft1 ip) (shiftLeft1 mask) (buffer ++ t.v.getD [])
        | none => buffer ++ t.v.getD [] := by
  rw [get]
  cases hv : t.v <;> simp [hv, hm]

theorem pathTo_zero (t : TrieNode V) (ip : Nat) : pathTo t ip 0 = [t] := by
  rw [pathTo]
  simp

theorem pathTo_pos {mask ip : Nat} (hm : mask ≠ 0) (t : TrieNode V) :
    pathTo t ip mask
      = t :: (match (if topBit ip = 0 then t.l else t.r) with
          | some n => pathTo n (shiftLeft1 ip) (shiftLeft1 mask)
          | none => []) := by
  rw [pathTo]
  simp [hm]

/-- The buffer returned by `get` is the incoming buffer followed by the
value lists of the visited nodes, in visiting order (root first). -/
theorem get_eq_pathTo (t : TrieNode V) (ip mask : Nat) (buffer : List V) :
    get t ip mask buffer
      = buffer ++ ((pathTo t ip mask).map (fun n => n.v.getD [])).flatten := by
  suffices h : ∀ fuel t ip mask (buffer : List V), shiftFuel mask < fuel →
      get t ip mask buffer
        = buffer ++ ((pathTo t ip mask).map (fun n => n.v.getD [])).flatten from
    h (shiftFuel mask + 1) t ip mask buffer (by omega)
  intro fuel
  induction fuel with
  | zero => intro t ip mask buffer h; omega
  | succ fuel ih =>
    intro t ip mask buffer hlt
    by_cases hm : mask = 0
    · subst hm
      rw [get_zero, pathTo_zero]
      simp
    · rw [get_pos hm, pathTo_pos hm]
      cases hc : (if topBit ip = 0 then t.l else t.r) with
      | none => simp
      | some n =>
        simp [ih n (shiftLeft1 ip) (shiftLeft1 mask) (buffer ++ t.v.getD [])
          (by have := shiftFuel_shiftLeft1_lt hm; omega)]

end TrieNode

/-! ## The masks produced by `insert_net_and_prefix` -/

/-- The `u32` mask holding ones in exactly the top `p` bit positions,
`0xffffffff << (32 - p)` for `p` in `[1, 32]`. -/
def maskOf (p : Nat) : Nat := 2 ^ 32 - 2 ^ (32 - p)

theorem maskOf_zero : maskOf 0 = 0 := by
  simp [maskOf]

theorem maskOf_32 : maskOf 32 = 4294967295 := rfl

theorem maskOf_ne_zero {p : Nat} (hp : 1 ≤ p) : maskOf p ≠ 0 := by
  have h1 : 2 ^ (32 - p) ≤ 2 ^ 31 := Nat.pow_le_pow_right (by norm_num) (by omega)
  have h2 : (2 : Nat) ^ 31 < 2 ^ 32 := by norm_num
  unfold maskOf
  omega

theorem shiftLeft1_maskOf {p : Nat} (h1 : 1 ≤ p) (h2 : p ≤ 32) :
    shiftLeft1 (maskOf p) = maskOf (p - 1) := by
  interval_cases p <;> rfl

theorem maskFormula {p : Nat} (h1 : 1 ≤ p) (h2 : p ≤ 32) :
    4294967295 * 2 ^ (32 - p) % 2 ^ 32 = maskOf p := by
  interval_cases p <;> rfl

/-! ## Arithmetic about address bits -/

/-- Addresses agreeing on their top `p ≥ 1` bits agree on bit 31. -/
theorem topBit_eq_topBit {p n a : Nat} (h1 : 1 ≤ p) (h2 : p ≤ 32)
    (hn : n < 2 ^ 32) (ha : a < 2 ^ 32)
    (h : n / 2 ^ (32 - p) = a / 2 ^ (32 - p)) : topBit n = topBit a := by
  unfold topBit
  interval_cases p <;> omega

/-- After a left shift, agreement on the top `p + 1` bits becomes
agreement on the top `p` bits of the shifted addresses. -/
theorem shiftLeft1_div_eq {p n a : Nat} (hp : p ≤ 31) (hn : n < 2 ^ 32)
    (ha : a < 2 ^ 32) (h : n / 2 ^ (31 - p) = a / 2 ^ (31 - p)) :
    shiftLeft1 n / 2 ^ (32 - p) = shiftLeft1 a / 2 ^ (32 - p) := by
  unfold shiftLeft1
  interval_cases p <;> omega

/-- When bit 31 agrees, agreement on the top `p + 1` bits is equivalent to
agreement of the shifted addresses on their top `p` bits. -/
theorem div_eq_iff_shiftLeft1 {p n a : Nat} (hp : p ≤ 31) (hn : n < 2 ^ 32)
    (ha : a < 2 ^ 32) (ht : topBit n = topBit a) :
    n / 2 ^ (31 - p) = a / 2 ^ (31 - p)
      ↔ shiftLeft1 n / 2 ^ (32 - p) = shiftLeft1 a / 2 ^ (32 - p) := by
  unfold topBit at ht
  unfold shiftLeft1
  interval_cases p <;> omega

/-! ## Insertion and lookup interaction -/

/-- `pathTo` always starts with the node it starts from. -/
theorem TrieNode.pathTo_cons {V : Type} (t : TrieNode V) (ip mask : Nat) :
    ∃ rest, TrieNode.pathTo t ip mask = t :: rest := by
  by_cases hm : mask = 0
  · subst hm
    exact ⟨[], TrieNode.pathTo_zero t ip⟩
  · rw [ TrieNode.pathTo_pos hm]
    exact ⟨_, rfl⟩

/-- Inserting with the mask of `p` top bits and then walking from any
address that agrees with the inserted network on those `p` bits finds the
inserted value, whatever the starting trie and buffer. -/
theorem mem_get_insert {V : Type} (v : V) :
    ∀ p d : Nat, p ≤ d → d ≤ 32 →
      ∀ (t : TrieNode V) (n a : Nat) (buffer : List V),
        n < 2 ^ 32 → a < 2 ^ 32 →
        n / 2 ^ (32 - p) = a / 2 ^ (32 - p) →
        v ∈ TrieNode.get ( TrieNode.insert t n (maskOf p) v) a (maskOf d) buffer := by
  intro p
  induction p with
  | zero =>
    intro d _ _ t n a buffer _ _ _
    rw [maskOf_zero, TrieNode.insert_zero, TrieNode.get_eq_pathTo]
    obtain ⟨rest, hrest⟩ :=
      TrieNode.pathTo_cons ( TrieNode.mk t.l t.r (some (t.v.getD [] ++ [v]))) a (maskOf d)
    rw [hrest]
    simp
  | succ p ihp =>
    intro d hpd hd32 t n a buffer hn ha hdiv
    have hp1 : (1 : Nat) ≤ p + 1 := by omega
    have hd1 : (1 : Nat) ≤ d := by omega
    have hmaskp : maskOf (p + 1) ≠ 0 := maskOf_ne_zero hp1
    have hmaskd : maskOf d ≠ 0 := maskOf_ne_zero hd1
    have htb : topBit n = topBit a := topBit_eq_topBit hp1 (by omega) hn ha hdiv
    have hsub : 32 - (p + 1) = 31 - p := by omega
    have hdiv' : shiftLeft1 n / 2 ^ (32 - p) = shiftLeft1 a / 2 ^ (32 - p) :=
      shiftLeft1_div_eq (by omega) hn ha (by rw [← hsub]; exact hdiv)
    have hmp : shiftLeft1 (maskOf (p + 1)) = maskOf p := by
      have := shiftLeft1_maskOf hp1 (by omega : p + 1 ≤ 32)
      simpa using this
    have hmd : shiftLeft1 (maskOf d) = maskOf (d - 1) := shiftLeft1_maskOf hd1 hd32
    by_cases hb : topBit n = 0
    · have hba : topBit a = 0 := by rw [← htb]; exact hb
      rw [ TrieNode.insert_pos_l hmaskp hb, TrieNode.get_pos hmaskd]
      simp only [hba, if_pos, TrieNode.l_mk, TrieNode.v_mk, hmp, hmd]
      exact ihp (d - 1) (by omega) (by omega) _ _ _ _
        (shiftLeft1_lt n) (shiftLeft1_lt a) hdiv'
    · have hba : ¬ topBit a = 0 := by rw [← htb]; exact hb
      rw [ TrieNode.insert_pos_r hmaskp hb, TrieNode.get_pos hmaskd]
      simp only [hba, if_neg, ite_false, TrieNode.r_mk, TrieNode.v_mk, hmp, hmd]
      exact ihp (d - 1) (by omega) (by omega) _ _ _ _
        (shiftLeft1_lt n) (shiftLeft1_lt a) hdiv'

/-- Lookup after a single insertion into the empty trie: the inserted
value is found exactly on the addresses agreeing with the network on the
inserted top `p` bits. -/
theorem get_insert_empty {V : Type} (v : V) :
    ∀ p d : Nat, p ≤ d → d ≤ 32 →
      ∀ n a : Nat, n < 2 ^ 32 → a < 2 ^ 32 →
        TrieNode.get ( TrieNode.insert TrieNode.empty n (maskOf p) v) a (maskOf d) []
          = if n / 2 ^ (32 - p) = a / 2 ^ (32 - p) then [v] else [] := by
  intro p
  induction p with
  | zero =>
    intro d _ _ n a hn ha
    have hcond : n / 2 ^ (32 - 0) = a / 2 ^ (32 - 0) := by
      rw [Nat.div_eq_of_lt (by simpa using hn), Nat.div_eq_of_lt (by simpa using ha)]
    rw [maskOf_zero, TrieNode.insert_zero, if_pos hcond]
    by_cases hd : maskOf d = 0
    · rw [hd, TrieNode.get_zero]
      simp [ TrieNode.empty]
    · rw [ TrieNode.get_pos hd]
      by_cases hba : topBit a = 0 <;> simp [hba, TrieNode.empty]
  | succ p ihp =>
    intro d hpd hd32 n a hn ha
    have hp1 : (1 : Nat) ≤ p + 1 := by omega
    have hd1 : (1 : Nat) ≤ d := by omega
    have hmaskp : maskOf (p + 1) ≠ 0 := maskOf_ne_zero hp1
    have hmaskd : maskOf d ≠ 0 := maskOf_ne_zero hd1
    have hsub : 32 - (p + 1) = 31 - p := by omega
    have hmp : shiftLeft1 (maskOf (p + 1)) = maskOf p := by
      have := shiftLeft1_maskOf hp1 (by omega : p + 1 ≤ 32)
      simpa using this
    have hmd : shiftLeft1 (maskOf d) = maskOf (d - 1) := shiftLeft1_maskOf hd1 hd32
    have hih := ihp (d - 1) (by omega) (by omega) (shiftLeft1 n) (shiftLeft1 a)
      (shiftLeft1_lt n) (shiftLeft1_lt a)
    by_cases hb : topBit n = 0 <;> by_cases hba : topBit a = 0
    · -- both descend left
      have htb : topBit n = topBit a := by rw [hb, hba]
      have hiff := div_eq_iff_shiftLeft1 (p := p) (by omega) hn ha htb
      rw [ TrieNode.insert_pos_l hmaskp hb, TrieNode.get_pos hmaskd]
      simp only [hba, if_pos, TrieNode.l_mk, TrieNode.v_mk, TrieNode.empty_l,
        TrieNode.empty_v, Option.getD_none, List.nil_append, hmp, hmd]
      rw [hih, hsub, if_congr hiff rfl rfl]
    · -- address goes right, nothing there
      have hne : ¬ n / 2 ^ (32 - (p + 1)) = a / 2 ^ (32 - (p + 1)) := by
        intro hcontra
        exact hba (by rw [← topBit_eq_topBit hp1 (by omega) hn ha hcontra]; exact hb)
      rw [ TrieNode.insert_pos_l hmaskp hb, TrieNode.get_pos hmaskd, if_neg hne]
      simp [hba, TrieNode.empty]
    · -- address goes left, nothing there
      have hne : ¬ n / 2 ^ (32 - (p + 1)) = a / 2 ^ (32 - (p + 1)) := by
        intro hcontra
        exact hb (by rw [topBit_eq_topBit hp1 (by omega) hn ha hcontra]; exact hba)
      rw [ TrieNode.insert_pos_r hmaskp hb, TrieNode.get_pos hmaskd, if_neg hne]
      simp [hba, TrieNode.empty]
    · -- both descend right
      have htb : topBit n = topBit a := by
        unfold topBit at hb hba ⊢
        omega
      have hiff := div_eq_iff_shiftLeft1 (p := p) (by omega) hn ha htb
      rw [ TrieNode.insert_pos_r hmaskp hb, TrieNode.get_pos hmaskd]
      simp only [hba, if_neg, ite_false, TrieNode.r_mk, TrieNode.v_mk, TrieNode.empty_r,
        TrieNode.empty_v, Option.getD_none, List.nil_append, hmp, hmd]
      rw [hih, hsub, if_congr hiff rfl rfl]

theorem sublist_append_middle {α : Type} (b vs F : List α) (x : α) :
    (b ++ (vs ++ F)).Sublist (b ++ ((vs ++ [x]) ++ F)) := by
  have h1 : F.Sublist (x :: F) := List.sublist_cons_self x F
  have h2 : (vs ++ F).Sublist (vs ++ x :: F) := h1.append_left vs
  have h3 := h2.append_left b
  simpa [List.append_assoc] using h3

/-- Inserting the same network and mask twice (values `x` then `y`) and
walking from an address agreeing on the inserted top `p` bits produces a
buffer in which `x` and `y` occur adjacently, in insertion order. -/
theorem get_insert_insert {V : Type} (x y : V) :
    ∀ p d : Nat, p ≤ d → d ≤ 32 →
      ∀ (t : TrieNode V) (n a : Nat) (buffer : List V),
        n < 2 ^ 32 → a < 2 ^ 32 →
        n / 2 ^ (32 - p) = a / 2 ^ (32 - p) →
        ∃ pre post,
          TrieNode.get
            ( TrieNode.insert ( TrieNode.insert t n (maskOf p) x) n (maskOf p) y)
            a (maskOf d) buffer = pre ++ x :: y :: post := by
  intro p
  induction p with
  | zero =>
    intro d _ _ t n a buffer _ _ _
    rw [maskOf_zero, TrieNode.insert_zero, TrieNode.insert_zero]
    simp only [ TrieNode.l_mk, TrieNode.r_mk, TrieNode.v_mk, Option.getD_some]
    rw [ TrieNode.get_eq_pathTo]
    obtain ⟨rest, hrest⟩ :=
      TrieNode.pathTo_cons
        ( TrieNode.mk t.l t.r (some (t.v.getD [] ++ [x] ++ [y]))) a (maskOf d)
    rw [hrest]
    refine ⟨buffer ++ t.v.getD [],
      (rest.map (fun nd => nd.v.getD [])).flatten, ?_⟩
    simp [List.append_assoc]
  | succ p ihp =>
    intro d hpd hd32 t n a buffer hn ha hdiv
    have hp1 : (1 : Nat) ≤ p + 1 := by omega
    have hd1 : (1 : Nat) ≤ d := by omega
    have hmaskp : maskOf (p + 1) ≠ 0 := maskOf_ne_zero hp1
    have hmaskd : maskOf d ≠ 0 := maskOf_ne_zero hd1
    have htb : topBit n = topBit a := topBit_eq_topBit hp1 (by omega) hn ha hdiv
    have hsub : 32 - (p + 1) = 31 - p := by omega
    have hdiv' : shiftLeft1 n / 2 ^ (32 - p) = shiftLeft1 a / 2 ^ (32 - p) :=
      shiftLeft1_div_eq (by omega) hn ha (by rw [← hsub]; exact hdiv)
    have hmp : shiftLeft1 (maskOf (p + 1)) = maskOf p := by
      have := shiftLeft1_maskOf hp1 (by omega : p + 1 ≤ 32)
      simpa using this
    have hmd : shiftLeft1 (maskOf d) = maskOf (d - 1) := shiftLeft1_maskOf hd1 hd32
    by_cases hb : topBit n = 0
    · have hba : topBit a = 0 := by rw [← htb]; exact hb
      rw [ TrieNode.insert_pos_l hmaskp hb, TrieNode.insert_pos_l hmaskp hb,
        TrieNode.get_pos hmaskd]
      simp only [hba, if_pos, TrieNode.l_mk, TrieNode.v_mk, Option.getD_some, hmp, hmd]
      exact ihp (d - 1) (by omega) (by omega) _ _ _ _
        (shiftLeft1_lt n) (shiftLeft1_lt a) hdiv'
    · have hba : ¬ topBit a = 0 := by rw [← htb]; exact hb
      rw [ TrieNode.insert_pos_r hmaskp hb, TrieNode.insert_pos_r hmaskp hb,
        TrieNode.get_pos hmaskd]
      simp only [hba, if_neg, ite_false, TrieNode.r_mk, TrieNode.v_mk,
        Option.getD_some, hmp, hmd]
      exact ihp (d - 1) (by omega) (by omega) _ _ _ _
        (shiftLeft1_lt n) (shiftLeft1_lt a) hdiv'

/-- Insertion never removes, replaces or reorders what any lookup already
returned: the old buffer is a sublist of the new one, for every address
and every starting trie. -/
theorem get_sublist_insert {V : Type} (v : V) :
    ∀ p d : Nat, p ≤ d → d ≤ 32 →
      ∀ (t : TrieNode V) (n a : Nat) (buffer : List V),
        ( TrieNode.get t a (maskOf d) buffer).Sublist
          ( TrieNode.get ( TrieNode.insert t n (maskOf p) v) a (maskOf d) buffer) := by
  intro p
  induction p with
  | zero =>
    intro d _ _ t n a buffer
    rw [maskOf_zero, TrieNode.insert_zero, TrieNode.get_eq_pathTo,
      TrieNode.get_eq_pathTo]
    by_cases hd : maskOf d = 0
    · rw [hd, TrieNode.pathTo_zero, TrieNode.pathTo_zero]
      simpa using sublist_append_middle buffer (t.v.getD []) [] v
    · rw [ TrieNode.pathTo_pos hd, TrieNode.pathTo_pos hd]
      simp only [ TrieNode.l_mk, TrieNode.r_mk, TrieNode.v_mk]
      cases hc : (if topBit a = 0 then t.l else t.r) with
      | none =>
        simpa using sublist_append_middle buffer (t.v.getD []) [] v
      | some c =>
        simpa [List.append_assoc] using
          sublist_append_middle buffer (t.v.getD [])
            ((( TrieNode.pathTo c (shiftLeft1 a) (shiftLeft1 (maskOf d))).map
              (fun nd => nd.v.getD [])).flatten) v
  | succ p ihp =>
    intro d hpd hd32 t n a buffer
    have hp1 : (1 : Nat) ≤ p + 1 := by omega
    have hd1 : (1 : Nat) ≤ d := by omega
    have hmaskp : maskOf (p + 1) ≠ 0 := maskOf_ne_zero hp1
    have hmaskd : maskOf d ≠ 0 := maskOf_ne_zero hd1
    have hmp : shiftLeft1 (maskOf (p + 1)) = maskOf p := by
      have := shiftLeft1_maskOf hp1 (by omega : p + 1 ≤ 32)
      simpa using this
    have hmd : shiftLeft1 (maskOf d) = maskOf (d - 1) := shiftLeft1_maskOf hd1 hd32
    by_cases hb : topBit n = 0 <;> by_cases hba : topBit a = 0
    · -- insert descends left, lookup reads left
      rw [ TrieNode.insert_pos_l hmaskp hb, TrieNode.get_pos hmaskd,
        TrieNode.get_pos hmaskd]
      simp only [hba, if_pos, TrieNode.l_mk, TrieNode.v_mk, hmp, hmd]
      cases hc : t.l with
      | some c =>
        simp only [Option.getD_some]
        exact ihp (d - 1) (by omega) (by omega) c (shiftLeft1 n) (shiftLeft1 a) _
      | none =>
        rw [ TrieNode.get_eq_pathTo]
        exact List.sublist_append_left _ _
    · -- insert descends left, lookup reads right: unchanged
      rw [ TrieNode.insert_pos_l hmaskp hb, TrieNode.get_pos hmaskd,
        TrieNode.get_pos hmaskd]
      simp only [hba, if_neg, ite_false, TrieNode.r_mk, TrieNode.v_mk]
      exact List.Sublist.refl _
    · -- insert descends right, lookup reads left: unchanged
      rw [ TrieNode.insert_pos_r hmaskp hb, TrieNode.get_pos hmaskd,
        TrieNode.get_pos hmaskd]
      simp only [hba, if_pos, TrieNode.l_mk, TrieNode.v_mk]
      exact List.Sublist.refl _
    · -- insert descends right, lookup reads right
      rw [ TrieNode.insert_pos_r hmaskp hb, TrieNode.get_pos hmaskd,
        TrieNode.get_pos hmaskd]
      simp only [hba, if_neg, ite_false, TrieNode.r_mk, TrieNode.v_mk, hmp, hmd]
      cases hc : t.r with
      | some c =>
        simp only [Option.getD_some]
        exact ihp (d - 1) (by omega) (by omega) c (shiftLeft1 n) (shiftLeft1 a) _
      | none =>
        rw [ TrieNode.get_eq_pathTo]
        exact List.sublist_append_left _ _

/-! ## Persistence codec lemmas -/

theorem TrieNode.size_pos {V : Type} (t : TrieNode V) : 0 < t.size := by
  cases t with
  | mk l r v => cases l <;> cases r <;> simp [ TrieNode.size]

/-- Structural induction for the nested inductive `TrieNode`, by strong
induction on `size`. -/
theorem TrieNode.induction_on {V : Type} {motive : TrieNode V → Prop} (t : TrieNode V)
    (h : ∀ (l r : Option (TrieNode V)) (v : Option (List V)),
      (∀ n, l = some n → motive n) → (∀ n, r = some n → motive n) →
      motive ( TrieNode.mk l r v)) : motive t := by
  suffices hs : ∀ (s : Nat) (t : TrieNode V), t.size ≤ s → motive t from
    hs t.size t le_rfl
  intro s
  induction s with
  | zero =>
    intro t ht
    exact absurd ht (by have := TrieNode.size_pos t; omega)
  | succ s ih =>
    intro t ht
    cases t with
    | mk l r v =>
      refine h l r v ?_ ?_
      · intro n hn
        subst hn
        refine ih n ?_
        cases r <;> simp [ TrieNode.size] at ht <;> omega
      · intro n hn
        subst hn
        refine ih n ?_
        cases l <;> simp [ TrieNode.size] at ht <;> omega

theorem decodeValues_encode {V : Type} {encV : V → List Nat}
    {decV : List Nat → Option (V × List Nat)}
    (hdec : ∀ (x : V) (r : List Nat), decV (encV x ++ r) = some (x, r)) :
    ∀ (vs : List V) (rest : List Nat),
      decodeValues decV vs.length ((vs.map encV).flatten ++ rest) = some (vs, rest) := by
  intro vs
  induction vs with
  | nil =>
    intro rest
    simp [decodeValues]
  | cons x xs ih =>
    intro rest
    simp only [List.map_cons, List.flatten_cons, List.length_cons, List.append_assoc]
    rw [decodeValues, hdec x ((xs.map encV).flatten ++ rest)]
    simp [ih rest]

/-- Every node contributes at least one byte to its encoding, so the
encoding length bounds the node count. -/
theorem TrieNode.size_le_length {V : Type} (encV : V → List Nat) (t : TrieNode V) :
    t.size ≤ ( TrieNode.nodeEncode encV t).length := by
  induction t using TrieNode.induction_on with
  | h l r v ihl ihr =>
    rw [ TrieNode.nodeEncode.eq_def]
    cases l with
    | none =>
      cases r with
      | none => cases v <;> simp [ TrieNode.size]
      | some rn =>
        have := ihr rn rfl
        cases v <;> simp [ TrieNode.size] <;> omega
    | some ln =>
      have hl := ihl ln rfl
      cases r with
      | none => cases v <;> simp [ TrieNode.size] <;> omega
      | some rn =>
        have := ihr rn rfl
        cases v <;> simp [ TrieNode.size] <;> omega

theorem TrieNode.nodeEncode_mk {V : Type} (encV : V → List Nat)
    (l r : Option (TrieNode V)) (v : Option (List V)) :
    TrieNode.nodeEncode encV ( TrieNode.mk l r v)
      = [if l.isSome then 1 else 0, if r.isSome then 1 else 0]
        ++ (match v with
          | none => [0]
          | some vs => 1 :: vs.length :: (vs.map encV).flatten)
        ++ (match l with
          | some n => TrieNode.nodeEncode encV n
          | none => [])
        ++ (match r with
          | some n => TrieNode.nodeEncode encV n
          | none => []) := by
  rw [ TrieNode.nodeEncode.eq_def]

/-- Decoding inverts encoding, for any fuel at least the node count and
any trailing bytes, provided the value codec round-trips. -/
theorem nodeDecode_encode {V : Type} {encV : V → List Nat}
    {decV : List Nat → Option (V × List Nat)}
    (hdec : ∀ (x : V) (r : List Nat), decV (encV x ++ r) = some (x, r)) :
    ∀ (t : TrieNode V) (fuel : Nat) (rest : List Nat), t.size ≤ fuel →
      nodeDecode decV fuel ( TrieNode.nodeEncode encV t ++ rest) = some (t, rest) := by
  intro t
  induction t using TrieNode.induction_on with
  | h l r v ihl ihr =>
    intro fuel rest hfuel
    obtain ⟨f, rfl⟩ : ∃ f, fuel = f + 1 :=
      ⟨fuel - 1, by have := TrieNode.size_pos ( TrieNode.mk l r v); omega⟩
    rw [ TrieNode.nodeEncode_mk]
    cases l with
    | none =>
      cases r with
      | none =>
        cases v with
        | none => simp [nodeDecode, decodeOptPart, decodeValueList]
        | some vs => simp [nodeDecode, decodeOptPart, decodeValueList, decodeValues_encode hdec]
      | some rn =>
        have hr := ihr rn rfl f rest (by simp [ TrieNode.size] at hfuel; omega)
        cases v with
        | none => simp [nodeDecode, decodeOptPart, decodeValueList, hr]
        | some vs => simp [nodeDecode, decodeOptPart, decodeValueList, decodeValues_encode hdec, hr]
    | some ln =>
      cases r with
      | none =>
        have hl := ihl ln rfl f rest (by simp [ TrieNode.size] at hfuel; omega)
        cases v with
        | none => simp [nodeDecode, decodeOptPart, decodeValueList, hl]
        | some vs => simp [nodeDecode, decodeOptPart, decodeValueList, decodeValues_encode hdec, hl]
      | some rn =>
        have hl := ihl ln rfl f ( TrieNode.nodeEncode encV rn ++ rest)
          (by simp [ TrieNode.size] at hfuel; omega)
        have hr := ihr rn rfl f rest (by simp [ TrieNode.size] at hfuel; omega)
        cases v with
        | none => simp [nodeDecode, decodeOptPart, decodeValueList, hl, hr]
        | some vs => simp [nodeDecode, decodeOptPart, decodeValueList, decodeValues_encode hdec, hl, hr]

theorem decodeOptPart_mono {A : Type}
    {d1 d2 : List Nat → Option (A × List Nat)}
    (h : ∀ bytes res, d1 bytes = some res → d2 bytes = some res) :
    ∀ flag bytes res, decodeOptPart d1 flag bytes = some res →
      decodeOptPart d2 flag bytes = some res := by
  intro flag bytes res hd
  unfold decodeOptPart at hd ⊢
  by_cases h0 : flag = 0
  · rwa [if_pos h0] at hd ⊢
  · rw [if_neg h0] at hd ⊢
    by_cases h1 : flag = 1
    · rw [if_pos h1] at hd ⊢
      cases hx : d1 bytes with
      | none => rw [hx] at hd; simp at hd
      | some xr =>
        rw [hx] at hd
        rw [h bytes xr hx]
        exact hd
    · rw [if_neg h1] at hd
      simp at hd

/-- Success of the decoder is stable under increasing fuel. -/
theorem nodeDecode_mono {V : Type} {decV : List Nat → Option (V × List Nat)} :
    ∀ (fuel fuel' : Nat) (bytes : List Nat) (res : TrieNode V × List Nat),
      fuel ≤ fuel' → nodeDecode decV fuel bytes = some res →
      nodeDecode decV fuel' bytes = some res := by
  intro fuel
  induction fuel with
  | zero =>
    intro fuel' bytes res _ h
    simp [nodeDecode] at h
  | succ f ih =>
    intro fuel' bytes res hle h
    obtain ⟨f', rfl⟩ : ∃ f', fuel' = f' + 1 := ⟨fuel' - 1, by omega⟩
    have hff : f ≤ f' := by omega
    cases bytes with
    | nil => simp [nodeDecode] at h
    | cons b1 r1 =>
    cases r1 with
    | nil => simp [nodeDecode] at h
    | cons b2 r2 =>
    cases r2 with
    | nil => simp [nodeDecode] at h
    | cons b3 bs =>
    rw [nodeDecode] at h
    cases hvp : decodeOptPart (decodeValueList decV) b3 bs with
    | none => rw [hvp] at h; simp at h
    | some vp =>
      obtain ⟨vopt, bytesA⟩ := vp
      rw [hvp] at h
      simp only [] at h
      cases hlp : decodeOptPart (nodeDecode decV f) b1 bytesA with
      | none => rw [hlp] at h; simp at h
      | some lp =>
        obtain ⟨lopt, bytesB⟩ := lp
        rw [hlp] at h
        simp only [] at h
        have hlp2 : decodeOptPart (nodeDecode decV f') b1 bytesA = some (lopt, bytesB) :=
          decodeOptPart_mono (fun b rr hh => ih f' b rr hff hh) _ _ _ hlp
        cases hrp : decodeOptPart (nodeDecode decV f) b2 bytesB with
        | none => rw [hrp] at h; simp at h
        | some rp =>
          obtain ⟨ropt, bytesC⟩ := rp
          rw [hrp] at h
          simp only [] at h
          have hrp2 : decodeOptPart (nodeDecode decV f') b2 bytesB = some (ropt, bytesC) :=
            decodeOptPart_mono (fun b rr hh => ih f' b rr hff hh) _ _ _ hrp
          rw [nodeDecode, hvp]
          simp only []
          rw [hlp2]
          simp only []
          rw [hrp2]
          exact h

theorem decodeValues_extend {V : Type} {decV : List Nat → Option (V × List Nat)}
    (hext : ∀ bytes res, decV bytes = some res →
      ∀ extra, decV (bytes ++ extra) = some (res.1, res.2 ++ extra)) :
    ∀ (count : Nat) (bytes : List Nat) (vs : List V) (rest extra : List Nat),
      decodeValues decV count bytes = some (vs, rest) →
      decodeValues decV count (bytes ++ extra) = some (vs, rest ++ extra) := by
  intro count
  induction count with
  | zero =>
    intro bytes vs rest extra h
    simp [decodeValues] at h ⊢
    simp [h.1, h.2]
  | succ c ih =>
    intro bytes vs rest extra h
    rw [decodeValues] at h ⊢
    cases hd : decV bytes with
    | none => rw [hd] at h; simp at h
    | some xr =>
      obtain ⟨x, r1⟩ := xr
      rw [hd] at h
      simp only [] at h
      rw [hext bytes (x, r1) hd extra]
      simp only []
      cases hdv : decodeValues decV c r1 with
      | none => rw [hdv] at h; simp at h
      | some vr =>
        obtain ⟨xs, r2⟩ := vr
        rw [hdv] at h
        simp only [] at h
        rw [ih r1 xs r2 extra hdv]
        simp only []
        simp at h
        simp [← h.1, ← h.2]

theorem decodeValueList_extend {V : Type} {decV : List Nat → Option (V × List Nat)}
    (hext : ∀ bytes res, decV bytes = some res →
      ∀ extra, decV (bytes ++ extra) = some (res.1, res.2 ++ extra)) :
    ∀ (bytes : List Nat) (res : List V × List Nat) (extra : List Nat),
      decodeValueList decV bytes = some res →
      decodeValueList decV (bytes ++ extra) = some (res.1, res.2 ++ extra) := by
  intro bytes res extra h
  cases bytes with
  | nil => simp [decodeValueList] at h
  | cons count bytes2 =>
    rw [decodeValueList] at h
    rw [List.cons_append, decodeValueList]
    exact decodeValues_extend hext count bytes2 res.1 res.2 extra (by simpa using h)

theorem decodeOptPart_extend {A : Type}
    {d : List Nat → Option (A × List Nat)}
    (hd : ∀ bytes res, d bytes = some res →
      ∀ extra, d (bytes ++ extra) = some (res.1, res.2 ++ extra)) :
    ∀ flag bytes res extra, decodeOptPart d flag bytes = some res →
      decodeOptPart d flag (bytes ++ extra) = some (res.1, res.2 ++ extra) := by
  intro flag bytes res extra hp
  unfold decodeOptPart at hp ⊢
  by_cases h0 : flag = 0
  · rw [if_pos h0] at hp ⊢
    simp at hp
    subst hp
    simp
  · rw [if_neg h0] at hp ⊢
    by_cases h1 : flag = 1
    · rw [if_pos h1] at hp ⊢
      cases hx : d bytes with
      | none => rw [hx] at hp; simp at hp
      | some xr =>
        rw [hx] at hp
        simp only [] at hp
        rw [hd bytes xr hx extra]
        simp only []
        simp at hp
        subst hp
        simp
    · rw [if_neg h1] at hp
      simp at hp

/-- A successful decode only looks at the bytes it consumes: appending
extra bytes leaves the decoded node unchanged and the extra bytes
unread. -/
theorem nodeDecode_extend {V : Type} {decV : List Nat → Option (V × List Nat)}
    (hext : ∀ bytes res, decV bytes = some res →
      ∀ extra, decV (bytes ++ extra) = some (res.1, res.2 ++ extra)) :
    ∀ (fuel : Nat) (bytes : List Nat) (res : TrieNode V × List Nat) (extra : List Nat),
      nodeDecode decV fuel bytes = some res →
      nodeDecode decV fuel (bytes ++ extra) = some (res.1, res.2 ++ extra) := by
  intro fuel
  induction fuel with
  | zero =>
    intro bytes res extra h
    simp [nodeDecode] at h
  | succ f ih =>
    intro bytes res extra h
    cases bytes with
    | nil => simp [nodeDecode] at h
    | cons b1 r1 =>
    cases r1 with
    | nil => simp [nodeDecode] at h
    | cons b2 r2 =>
    cases r2 with
    | nil => simp [nodeDecode] at h
    | cons b3 bs =>
    rw [nodeDecode] at h
    rw [List.cons_append, List.cons_append, List.cons_append, nodeDecode]
    cases hvp : decodeOptPart (decodeValueList decV) b3 bs with
    | none => rw [hvp] at h; simp at h
    | some vp =>
      obtain ⟨vopt, bytesA⟩ := vp
      rw [hvp] at h
      simp only [] at h
      rw [decodeOptPart_extend (fun b rr hh e => decodeValueList_extend hext b rr e hh) b3 bs (vopt, bytesA) extra hvp]
      simp only []
      cases hlp : decodeOptPart (nodeDecode decV f) b1 bytesA with
      | none => rw [hlp] at h; simp at h
      | some lp =>
        obtain ⟨lopt, bytesB⟩ := lp
        rw [hlp] at h
        simp only [] at h
        rw [decodeOptPart_extend (fun b rr hh e => ih b rr e hh) b1 bytesA (lopt, bytesB) extra hlp]
        simp only []
        cases hrp : decodeOptPart (nodeDecode decV f) b2 bytesB with
        | none => rw [hrp] at h; simp at h
        | some rp =>
          obtain ⟨ropt, bytesC⟩ := rp
          rw [hrp] at h
          simp only [] at h
          rw [decodeOptPart_extend (fun b rr hh e => ih b rr e hh) b2 bytesB (ropt, bytesC) extra hrp]
          simp only []
          simp at h
          subst h
          simp

/-! ## High level facts about the public operations -/

theorem insert_net_and_prefix_eq {V : Type} (t : Trie V) {p : Nat} (hp1 : 1 ≤ p)
    (hp2 : p ≤ 32) (net : Nat) (value : V) :
    Trie.insert_net_and_prefix t net p value
      = some ⟨ TrieNode.insert t.root net (maskOf p) value⟩ := by
  unfold Trie.insert_net_and_prefix checkedSub checkedShl
  rw [if_pos (by omega : p ≤ 32)]
  simp only []
  rw [if_pos (by omega : 32 - p < 32)]
  simp only []
  rw [maskFormula hp1 hp2]

theorem insert_net_and_prefix_inv {V : Type} {t t' : Trie V} {net p : Nat} {value : V}
    (h : Trie.insert_net_and_prefix t net p value = some t') :
    1 ≤ p ∧ p ≤ 32 ∧ t' = ⟨ TrieNode.insert t.root net (maskOf p) value⟩ := by
  unfold Trie.insert_net_and_prefix checkedSub checkedShl at h
  by_cases hp2 : p ≤ 32
  · rw [if_pos hp2] at h
    simp only [] at h
    by_cases hs : 32 - p < 32
    · rw [if_pos hs] at h
      simp only [] at h
      have hp1 : 1 ≤ p := by omega
      rw [maskFormula hp1 hp2] at h
      simp at h
      exact ⟨hp1, hp2, h.symm⟩
    · rw [if_neg hs] at h
      simp at h
  · rw [if_neg hp2] at h
    simp at h

theorem get_empty_root {V : Type} (a : Nat) :
    TrieNode.get ( TrieNode.empty (V := V)) a 4294967295 [] = [] := by
  rw [ TrieNode.get_pos (by norm_num)]
  by_cases hba : topBit a = 0 <;> simp [hba]

theorem decNat_encNat : ∀ (x : Nat) (r : List Nat), decNat (encNat x ++ r) = some (x, r) :=
  fun _ _ => rfl

theorem decNat_extend : ∀ (bytes : List Nat) (res : Nat × List Nat),
    decNat bytes = some res →
    ∀ extra, decNat (bytes ++ extra) = some (res.1, res.2 ++ extra) := by
  intro bytes res h extra
  cases bytes with
  | nil => simp [decNat] at h
  | cons b rest =>
    simp [decNat] at h
    subst h
    simp [decNat]

theorem decodeOptPart_illegal {A : Type} (d : List Nat → Option (A × List Nat))
    {flag : Nat} (hb : 2 ≤ flag) (bytes : List Nat) :
    decodeOptPart d flag bytes = none := by
  unfold decodeOptPart
  rw [if_neg (by omega), if_neg (by omega)]

theorem nodeDecode_illegal {V : Type} (decV : List Nat → Option (V × List Nat))
    (f b1 b2 b3 : Nat) (bs : List Nat) (hb : 2 ≤ b1) :
    nodeDecode (V := V) decV (f + 1) (b1 :: b2 :: b3 :: bs) = none := by
  rw [nodeDecode]
  cases hvp : decodeOptPart (decodeValueList decV) b3 bs with
  | none => rfl
  | some vp =>
    obtain ⟨vopt, bytesA⟩ := vp
    simp only []
    rw [decodeOptPart_illegal _ hb]

/-- Round trip through the modelled persistence layer. -/
theorem readTrie_write {V : Type} {encV : V → List Nat}
    {decV : List Nat → Option (V × List Nat)}
    (hdec : ∀ (x : V) (r : List Nat), decV (encV x ++ r) = some (x, r)) (t : Trie V) :
    readTrie decV ( Trie.write_to_file encV t) = some t := by
  unfold readTrie Trie.write_to_file
  have h := nodeDecode_encode hdec t.root (( TrieNode.nodeEncode encV t.root).length + 1) []
    (by have := TrieNode.size_le_length encV t.root; omega)
  rw [List.append_nil] at h
  rw [h]

/-- Trailing garbage after a valid encoding is rejected. -/
theorem readTrie_garbage {V : Type} {encV : V → List Nat}
    {decV : List Nat → Option (V × List Nat)}
    (hdec : ∀ (x : V) (r : List Nat), decV (encV x ++ r) = some (x, r)) (t : Trie V)
    (g : List Nat) (hg : g ≠ []) :
    readTrie decV ( Trie.write_to_file encV t ++ g) = none := by
  unfold readTrie Trie.write_to_file
  have h := nodeDecode_encode hdec t.root
    (( TrieNode.nodeEncode encV t.root ++ g).length + 1) g
    (by have := TrieNode.size_le_length encV t.root; simp; omega)
  rw [h]
  cases g with
  | nil => exact absurd rfl hg
  | cons b bs => rfl

/-- A strict prefix of a valid encoding is rejected. -/
theorem readTrie_take {V : Type} {encV : V → List Nat}
    {decV : List Nat → Option (V × List Nat)}
    (hdec : ∀ (x : V) (r : List Nat), decV (encV x ++ r) = some (x, r))
    (hext : ∀ (bytes : List Nat) (res : V × List Nat), decV bytes = some res →
      ∀ extra, decV (bytes ++ extra) = some (res.1, res.2 ++ extra))
    (t : Trie V) (k : Nat) (hk : k < ( Trie.write_to_file encV t).length) :
    readTrie decV (( Trie.write_to_file encV t).take k) = none := by
  unfold readTrie Trie.write_to_file
  unfold Trie.write_to_file at hk
  cases hnd : nodeDecode decV ((( TrieNode.nodeEncode encV t.root).take k).length + 1)
      (( TrieNode.nodeEncode encV t.root).take k) with
  | none => rfl
  | some pr =>
    obtain ⟨root, restb⟩ := pr
    cases restb with
    | cons b bs => rfl
    | nil =>
      exfalso
      have h1 := nodeDecode_extend hext _ _ _
        (( TrieNode.nodeEncode encV t.root).drop k) hnd
      rw [List.take_append_drop] at h1
      simp only [List.nil_append] at h1
      set F := ((( TrieNode.nodeEncode encV t.root).take k).length + 1)
        + (( TrieNode.nodeEncode encV t.root).length + 1) with hF
      have h2 : nodeDecode decV F ( TrieNode.nodeEncode encV t.root)
          = some (root, ( TrieNode.nodeEncode encV t.root).drop k) :=
        nodeDecode_mono _ F _ _ (by omega) h1
      have h3 : nodeDecode decV F ( TrieNode.nodeEncode encV t.root)
          = some (t.root, []) := by
        have h4 := nodeDecode_encode hdec t.root F []
          (by have := TrieNode.size_le_length encV t.root; omega)
        rwa [List.append_nil] at h4
      rw [h2] at h3
      simp at h3
      have h5 := h3.2
      omega

/-- An illegal leading discriminant is rejected. -/
theorem readTrie_illegal {V : Type} (decV : List Nat → Option (V × List Nat))
    (b : Nat) (bytes : List Nat) (hb : 2 ≤ b) :
    readTrie (V := V) decV (b :: bytes) = none := by
  cases bytes with
  | nil => rfl
  | cons c r2 =>
    cases r2 with
    | nil => rfl
    | cons d bs =>
      unfold readTrie
      simp only [List.length_cons]
      rw [nodeDecode_illegal decV _ _ _ _ _ hb]

/-- `splitn(2, "/")` finds no separator exactly on slash-free input. -/
theorem splitn2_no_slash : ∀ l : List Char, '/' ∉ l → splitn2 l = (l, none) := by
  intro l
  induction l with
  | nil => intro _; rfl
  | cons c rest ih =>
    intro hmem
    rw [splitn2]
    rw [if_neg (by intro hc; exact hmem (by simp [hc]))]
    rw [ih (by intro hc; exact hmem (by simp [hc]))]

/-- The body of `CidrBlock::from_str`, with the `let` for `parts`
inlined. -/
theorem from_str_eq (s : String) :
    CidrBlock.from_str s
      = match parseIpv4 (splitn2 s.data).1 with
        | none => ParseResult.err
        | some net =>
          match (splitn2 s.data).2 with
          | none => ParseResult.panicked
          | some pp =>
            match parseU32 pp with
            | none => ParseResult.err
            | some p => ParseResult.ok ⟨net, p⟩ := rfl

/-! ## The claims -/

/-- Claim C1, amended to prefix lengths in `[1, 32]`: inserting
`(n, p, value)` into any trie succeeds, and `get a` contains `value` for
every address `a` whose top `p` bits equal `n`'s top `p` bits.  (As
stated, with `p` ranging over `[0, 32]`, the claim fails at `p = 0`: the
mask computation `0xffffffff << 32` overflows, see the counterexample.) -/
theorem claimC1 {V : Type} (t : Trie V) (n p : Nat) (value : V) (a : Nat)
    (hp1 : 1 ≤ p) (hp2 : p ≤ 32) (hn : n < 2 ^ 32) (ha : a < 2 ^ 32)
    (hdiv : n / 2 ^ (32 - p) = a / 2 ^ (32 - p)) :
    ∃ t', Trie.insert_net_and_prefix t n p value = some t'
      ∧ value ∈ Trie.get t' a := by
  refine ⟨⟨ TrieNode.insert t.root n (maskOf p) value⟩,
    insert_net_and_prefix_eq t hp1 hp2 n value, ?_⟩
  unfold Trie.get
  rw [← maskOf_32]
  exact mem_get_insert value p 32 hp2 le_rfl t.root n a [] hn ha hdiv

/-- Witness for C1 at `183.40.20.0/8 -> 49` and address `183.41.24.249`. -/
theorem claimC1_witness :
    ∃ t', Trie.insert_net_and_prefix ( Trie.empty (V := Nat)) (ipv4 183 40 20 0) 8 49 = some t'
      ∧ 49 ∈ Trie.get t' (ipv4 183 41 24 249) :=
  claimC1 Trie.empty (ipv4 183 40 20 0) 8 49 (ipv4 183 41 24 249)
    (by decide) (by decide) (by decide) (by decide) (by decide)

set_option maxHeartbeats 1000000 in
/-- Counterexample to C1 as stated: at prefix length 0 the insertion
panics (`0xffffffff << 32` overflows; modelled as `none`), so no address
can find the value; and even under release-mode wrapping, where the shift
amount is reduced mod 32 and the mask becomes `0xffffffff`, the value
lands at depth 32 and the address 1 does not see it. -/
theorem claimC1_counterexample :
    Trie.insert_net_and_prefix ( Trie.empty (V := Nat)) 0 0 42 = none
    ∧ TrieNode.get ( TrieNode.insert ( TrieNode.empty (V := Nat)) 0 4294967295 42)
        1 4294967295 [] = [] := by
  constructor
  · rfl
  · simp [ TrieNode.insert, TrieNode.get, shiftLeft1, topBit]

/-- Claim C2: a `/0` insertion does not make every address match -- it
panics in the mask computation (first conjunct; the code bug).  A `/32`
insertion into the empty trie makes `get` find its value exactly on the
inserted address (second conjunct). -/
theorem claimC2 :
    (∀ (V : Type) (t : Trie V) (net : Nat) (value : V),
      Trie.insert_net_and_prefix t net 0 value = none)
    ∧ (∀ (n a value : Nat) (t' : Trie Nat), n < 2 ^ 32 → a < 2 ^ 32 →
        Trie.insert_net_and_prefix ( Trie.empty (V := Nat)) n 32 value = some t' →
        (value ∈ Trie.get t' a ↔ a = n)) := by
  constructor
  · intro V t net value
    unfold Trie.insert_net_and_prefix checkedSub checkedShl
    simp
  · intro n a value t' hn ha h
    obtain ⟨_, _, rfl⟩ := insert_net_and_prefix_inv h
    unfold Trie.get
    rw [← maskOf_32]
    have hroot : ( Trie.empty (V := Nat)).root = TrieNode.empty := rfl
    rw [hroot, get_insert_empty value 32 32 le_rfl le_rfl n a hn ha]
    simp only [Nat.sub_self, pow_zero, Nat.div_one]
    by_cases hna : n = a
    · simp [hna]
    · rw [if_neg hna]
      simp
      omega

/-- Witness for C2: the `/0` failure and the `/32` exact-match test at a
non-matching address. -/
theorem claimC2_witness :
    Trie.insert_net_and_prefix ( Trie.empty (V := Nat)) (ipv4 1 2 3 4) 0 7 = none
    ∧ (7 ∈ Trie.get ⟨ TrieNode.insert ( TrieNode.empty (V := Nat)) (ipv4 1 2 3 4) 4294967295 7⟩
          (ipv4 10 2 3 4)
        ↔ (ipv4 10 2 3 4) = ipv4 1 2 3 4) :=
  ⟨claimC2.1 Nat Trie.empty (ipv4 1 2 3 4) 7,
   claimC2.2 (ipv4 1 2 3 4) (ipv4 10 2 3 4) 7 _ (by decide) (by decide) rfl⟩

/-- Claim C3, amended: `insert_net_and_prefix` performs no validation and
has no error return.  A prefix above 32 makes `32 - prefix` overflow and a
prefix of 0 makes the shift overflow (both modelled as `none`, a panic);
for prefixes in `[1, 32]` the insertion succeeds and the insert/lookup
path cannot fail. -/
theorem claimC3 :
    (∀ (V : Type) (t : Trie V) (net : Nat) (value : V) (p : Nat), 32 < p →
      Trie.insert_net_and_prefix t net p value = none)
    ∧ (∀ (V : Type) (t : Trie V) (net : Nat) (value : V),
      Trie.insert_net_and_prefix t net 0 value = none)
    ∧ (∀ (V : Type) (t : Trie V) (net : Nat) (value : V) (p : Nat), 1 ≤ p → p ≤ 32 →
      ( Trie.insert_net_and_prefix t net p value).isSome = true) := by
  refine ⟨?_, ?_, ?_⟩
  · intro V t net value p hp
    unfold Trie.insert_net_and_prefix checkedSub
    rw [if_neg (by omega)]
  · intro V t net value
    unfold Trie.insert_net_and_prefix checkedSub checkedShl
    simp
  · intro V t net value p hp1 hp2
    rw [insert_net_and_prefix_eq t hp1 hp2 net value]
    rfl

/-- Counterexample to C3 as stated: prefix 0 lies in `[0, 32]`, yet the
insert path fails on it (shift overflow), so "no operation in the
lookup/insert path can fail for prefixes in `[0, 32]`" is false; and the
rejection of `p > 32` is a panic, not an error return (the function
returns unit). -/
theorem claimC3_counterexample :
    Trie.insert_net_and_prefix ( Trie.empty (V := Nat)) 5 0 7 = none := rfl

/-- Witness for C3 at prefixes 33, 0 and 24. -/
theorem claimC3_witness :
    Trie.insert_net_and_prefix ( Trie.empty (V := Nat)) 9 33 1 = none
    ∧ Trie.insert_net_and_prefix ( Trie.empty (V := Nat)) 9 0 1 = none
    ∧ ( Trie.insert_net_and_prefix ( Trie.empty (V := Nat)) 9 24 1).isSome = true :=
  ⟨claimC3.1 Nat Trie.empty 9 1 33 (by omega),
   claimC3.2.1 Nat Trie.empty 9 1,
   claimC3.2.2 Nat Trie.empty 9 1 24 (by omega) (by omega)⟩

/-- Claim C4, amended to the actual parser behavior: a malformed dotted
quad yields a parse error; with a separator present, a prefix part that
is not a `u32` numeral yields a parse error; but when the separator is
absent and the dotted quad is valid, indexing `parts[1]` panics; and any
prefix that fits in a `u32` -- including values above 32 -- is accepted
without a range check. -/
theorem claimC4 :
    (∀ s : String, '/' ∉ s.data → parseIpv4 s.data ≠ none →
      CidrBlock.from_str s = ParseResult.panicked)
    ∧ (∀ s : String, parseIpv4 (splitn2 s.data).1 = none →
      CidrBlock.from_str s = ParseResult.err)
    ∧ (∀ (s : String) (pp : List Char), (splitn2 s.data).2 = some pp →
      parseU32 pp = none → CidrBlock.from_str s = ParseResult.err)
    ∧ (∀ (s : String) (pp : List Char) (net p : Nat),
      parseIpv4 (splitn2 s.data).1 = some net → (splitn2 s.data).2 = some pp →
      parseU32 pp = some p → CidrBlock.from_str s = ParseResult.ok ⟨net, p⟩) := by
  refine ⟨?_, ?_, ?_, ?_⟩
  · intro s hs hip
    rw [from_str_eq]
    simp only [splitn2_no_slash s.data hs]
    cases hip2 : parseIpv4 s.data with
    | none => exact absurd hip2 hip
    | some net => rfl
  · intro s hip
    rw [from_str_eq, hip]
  · intro s pp hpp hpu
    rw [from_str_eq]
    cases hip2 : parseIpv4 (splitn2 s.data).1 with
    | none => rfl
    | some net => simp [hpp, hpu]
  · intro s pp net p hip hpp hpu
    rw [from_str_eq]
    simp [hip, hpp, hpu]

/-- Counterexample to C4 as stated: on `"1.2.3.4"` (separator absent) the
parser panics instead of returning a parse error, and the out-of-range
prefix `"1.2.3.4/33"` is accepted instead of rejected. -/
theorem claimC4_counterexample :
    CidrBlock.from_str ("1.2.3.4") = ParseResult.panicked
    ∧ CidrBlock.from_str ("1.2.3.4/33") = ParseResult.ok ⟨16909060, 33⟩ :=
  ⟨by decide, by decide⟩

/-- Witness for C4 on concrete inputs for each branch. -/
theorem claimC4_witness :
    CidrBlock.from_str ("1.2.3.4") = ParseResult.panicked
    ∧ CidrBlock.from_str ("abc") = ParseResult.err
    ∧ CidrBlock.from_str ("1.2.3.4/xy") = ParseResult.err
    ∧ CidrBlock.from_str ("1.2.3.4/99") = ParseResult.ok ⟨16909060, 99⟩ :=
  ⟨claimC4.1 ("1.2.3.4") (by decide) (by decide),
   claimC4.2.1 ("abc") (by decide),
   claimC4.2.2.1 ("1.2.3.4/xy") (['x', 'y']) (by decide) (by decide),
   claimC4.2.2.2 ("1.2.3.4/99") (['9', '9']) 16909060 99 (by decide) (by decide) (by decide)⟩

set_option maxHeartbeats 1000000 in
/-- Claim C5: the sequence returned by `get` is the concatenation of the
value lists of the visited nodes, in visiting order (root first, so least
specific to most specific, preserving within-node insertion order); and
the concrete example from the spec: after `183.40.20.0/8 -> 49` and
`183.40.21.3/16 -> 150`, `get 183.40.25.59` returns `[49, 150]`. -/
theorem claimC5 :
    (∀ (V : Type) (t : Trie V) (a : Nat),
      Trie.get t a
        = (( TrieNode.pathTo t.root a 4294967295).map (fun nd => nd.v.getD [])).flatten)
    ∧ (( Trie.insert_net_and_prefix ( Trie.empty (V := Nat)) (ipv4 183 40 20 0) 8 49).bind
        (fun t => Trie.insert_net_and_prefix t (ipv4 183 40 21 3) 16 150)).map
        (fun t => Trie.get t (ipv4 183 40 25 59)) = some [49, 150] := by
  constructor
  · intro V t a
    unfold Trie.get
    rw [ TrieNode.get_eq_pathTo]
    simp
  · simp [ Trie.insert_net_and_prefix, Trie.get, TrieNode.insert, TrieNode.get,
      checkedSub, checkedShl, shiftLeft1, topBit, ipv4, Trie.empty, TrieNode.empty]

/-- Claim C6: inserting the same `(net, prefix)` twice, with values `x`
then `y`, is an append: on any matching address `get` returns a buffer in
which `x` and `y` both occur, adjacent and in insertion order -- never a
replacement. -/
theorem claimC6 {V : Type} (t t1 t2 : Trie V) (n p : Nat) (x y : V) (a : Nat)
    (h1 : Trie.insert_net_and_prefix t n p x = some t1)
    (h2 : Trie.insert_net_and_prefix t1 n p y = some t2)
    (hn : n < 2 ^ 32) (ha : a < 2 ^ 32)
    (hdiv : n / 2 ^ (32 - p) = a / 2 ^ (32 - p)) :
    ∃ pre post, Trie.get t2 a = pre ++ x :: y :: post := by
  obtain ⟨hp1, hp2, rfl⟩ := insert_net_and_prefix_inv h1
  obtain ⟨_, _, rfl⟩ := insert_net_and_prefix_inv h2
  unfold Trie.get
  rw [← maskOf_32]
  exact get_insert_insert x y p 32 hp2 le_rfl t.root n a [] hn ha hdiv

/-- Witness for C6 at `10.0.0.0/8` with values 3 then 4. -/
theorem claimC6_witness :
    ∃ pre post,
      Trie.get ⟨ TrieNode.insert
          ( TrieNode.insert ( TrieNode.empty (V := Nat)) (ipv4 10 0 0 0) 4278190080 3)
          (ipv4 10 0 0 0) 4278190080 4⟩ (ipv4 10 9 9 9)
        = pre ++ 3 :: 4 :: post :=
  claimC6 Trie.empty _ _ (ipv4 10 0 0 0) 8 3 4 (ipv4 10 9 9 9) rfl rfl
    (by decide) (by decide) (by decide)

/-- Claim C7: writing and then reading back reproduces the identical
trie (hence identical `get` behavior), for every value codec that itself
round-trips.  The codec layer is modelled from the spec. -/
theorem claimC7 {V : Type} (encV : V → List Nat)
    (decV : List Nat → Option (V × List Nat))
    (hdec : ∀ (x : V) (r : List Nat), decV (encV x ++ r) = some (x, r)) (t : Trie V) :
    readTrie decV ( Trie.write_to_file encV t) = some t
    ∧ ∀ a : Nat, ∃ t' : Trie V, readTrie decV ( Trie.write_to_file encV t) = some t'
        ∧ Trie.get t' a = Trie.get t a :=
  ⟨readTrie_write hdec t, fun _ => ⟨t, readTrie_write hdec t, rfl⟩⟩

/-- Witness for C7 with the concrete `Nat` codec and a concrete trie. -/
theorem claimC7_witness :
    readTrie decNat ( Trie.write_to_file encNat sampleTrie) = some sampleTrie
    ∧ ∃ t' : Trie Nat, readTrie decNat ( Trie.write_to_file encNat sampleTrie) = some t'
        ∧ Trie.get t' 7 = Trie.get sampleTrie 7 :=
  ⟨(claimC7 encNat decNat decNat_encNat sampleTrie).1,
   (claimC7 encNat decNat decNat_encNat sampleTrie).2 7⟩

/-- Claim C8: loading malformed persisted bytes -- a truncation of a
valid encoding, trailing garbage after a valid encoding, or an illegal
leading discriminant -- fails with a decode error (modelled as `none`)
and never produces a trie.  The codec layer is modelled from the spec. -/
theorem claimC8 {V : Type} (encV : V → List Nat)
    (decV : List Nat → Option (V × List Nat))
    (hdec : ∀ (x : V) (r : List Nat), decV (encV x ++ r) = some (x, r))
    (hext : ∀ (bytes : List Nat) (res : V × List Nat), decV bytes = some res →
      ∀ extra, decV (bytes ++ extra) = some (res.1, res.2 ++ extra)) :
    (∀ (t : Trie V) (k : Nat), k < ( Trie.write_to_file encV t).length →
      readTrie decV (( Trie.write_to_file encV t).take k) = none)
    ∧ (∀ (t : Trie V) (g : List Nat), g ≠ [] →
      readTrie decV ( Trie.write_to_file encV t ++ g) = none)
    ∧ (∀ (b : Nat) (bytes : List Nat), 2 ≤ b →
      readTrie (V := V) decV (b :: bytes) = none) :=
  ⟨fun t k hk => readTrie_take hdec hext t k hk,
   fun t g hg => readTrie_garbage hdec t g hg,
   fun b bytes hb => readTrie_illegal decV b bytes hb⟩

/-- Witness for C8 with the concrete `Nat` codec and a concrete trie. -/
theorem claimC8_witness :
    readTrie decNat (( Trie.write_to_file encNat sampleTrie).take 4) = none
    ∧ readTrie decNat ( Trie.write_to_file encNat sampleTrie ++ [9]) = none
    ∧ readTrie (V := Nat) decNat ([7, 0, 0]) = none :=
  ⟨(claimC8 encNat decNat decNat_encNat decNat_extend).1 sampleTrie 4 (by decide),
   (claimC8 encNat decNat decNat_encNat decNat_extend).2.1 sampleTrie [9] (by decide),
   (claimC8 encNat decNat decNat_encNat decNat_extend).2.2 7 [0, 0] (by decide)⟩

/-- Claim C9: reading from a missing path is not an error: it returns the
fresh empty trie, for which `contains_ip` is false and `get` is empty on
every address. -/
theorem claimC9 {V : Type} (decV : List Nat → Option (V × List Nat)) :
    Trie.read_from_file decV none = some ( Trie.empty (V := V))
    ∧ (∀ a : Nat, Trie.contains_ip ( Trie.empty (V := V)) a = false)
    ∧ (∀ a : Nat, Trie.get ( Trie.empty (V := V)) a = []) := by
  refine ⟨rfl, ?_, ?_⟩
  · intro a
    unfold Trie.contains_ip
    have hroot : ( Trie.empty (V := V)).root = TrieNode.empty := rfl
    rw [hroot, get_empty_root]
    rfl
  · intro a
    unfold Trie.get
    have hroot : ( Trie.empty (V := V)).root = TrieNode.empty := rfl
    rw [hroot, get_empty_root]

/-- Claim C10: a successful insertion never removes, replaces or reorders
existing matches: for every address, the old `get` result is a sublist
(same relative order) of the new one. -/
theorem claimC10 {V : Type} (t t' : Trie V) (net p : Nat) (value : V) (a : Nat)
    (h : Trie.insert_net_and_prefix t net p value = some t') :
    ( Trie.get t a).Sublist ( Trie.get t' a) := by
  obtain ⟨hp1, hp2, rfl⟩ := insert_net_and_prefix_inv h
  unfold Trie.get
  rw [← maskOf_32]
  exact get_sublist_insert value p 32 hp2 le_rfl t.root net a []

/-- Witness for C10 with a `/32` insertion into the empty trie. -/
theorem claimC10_witness :
    ( Trie.get ( Trie.empty (V := Nat)) 5).Sublist
      ( Trie.get ⟨ TrieNode.insert ( TrieNode.empty (V := Nat)) 0 4294967295 1⟩ 5) :=
  claimC10 Trie.empty _ 0 32 1 5 rfl

end Mm2rtrie
